import Mathlib

/-!
Verification of the cross-section projection engine specification and of the
ModflowRch recharge-package file round-trip and check logic.

The projection core (line normalizer, footprint extractor, segment-cell
intersector, cross-section assembler, rendering adapter) is modelled from the
specification document, since only its test suite ships in this tree.  The
recharge package (mfrch) definitions are embedded directly from
flopy/modflow/mfrch.py.

Conventions: coordinates are exact rationals (the canonicalized vertex data),
stations (cumulative distances along the line) are real numbers, and all
combinatorial computations (which cells a line passes through, output ordering,
masking) are executable so concrete scenarios can be checked by decide.
-/

namespace FlopyModel

/-- Modelled from the spec: the accepted shapes of a raw line specification
(§4.1, §6).  The cross-section engine itself is absent from this tree, so raw
specs are modelled as a closed variant type: a bare numeric scalar, a
non-numeric token, a nested sequence (Python tuple/list), or an external
geometry object (flopy or shapely LineString) exposing its coordinate
sequence. -/
inductive RawSpec where
  | scalar (q : ℚ)
  | nonNumeric
  | seq (items : List RawSpec)
  | flopyGeom (coords : List (ℚ × ℚ))
  | shapelyGeom (coords : List (ℚ × ℚ))

/-- Modelled from the spec: the error taxonomy of §7 for line validation. -/
inductive LineError where
  | invalidLine
deriving DecidableEq

/-- Modelled from the spec: a sequence item is a vertex exactly when it is a
2-numeric tuple (§4.1 validation). -/
def asVertex : RawSpec → Option (ℚ × ℚ)
  | RawSpec.seq [RawSpec.scalar x, RawSpec.scalar y] => some (x, y)
  | _ => none

/-- Modelled from the spec: collapse a sequence of items into vertices,
failing if any item is not a 2-numeric tuple (§4.1). -/
def vertsOfItems : List RawSpec → Option (List (ℚ × ℚ))
  | [] => some []
  | s :: rest =>
      match asVertex s, vertsOfItems rest with
      | some v, some vs => some (v :: vs)
      | _, _ => none

/-- Modelled from the spec: the coordinate sequence exposed by a raw spec:
sequences collapse item-wise, geometry objects expose their stored
coordinates, scalars and non-numeric tokens expose none (§4.1). -/
def coordsOf : RawSpec → Option (List (ℚ × ℚ))
  | RawSpec.seq items => vertsOfItems items
  | RawSpec.flopyGeom cs => some cs
  | RawSpec.shapelyGeom cs => some cs
  | _ => none

/-- Modelled from the spec: canonicalization removes repeated consecutive
points, per the Line invariant of §3 (ordered sequence of vertices with no
repeated consecutive points). -/
def dedupConsec : List (ℚ × ℚ) → List (ℚ × ℚ)
  | [] => []
  | [p] => [p]
  | p :: q :: rest =>
      if p = q then dedupConsec (q :: rest) else p :: dedupConsec (q :: rest)

/-- Modelled from the spec: the Line Normalizer contract of §4.1.
Accepts a spec, collapses it to a coordinate sequence, canonicalizes, and
fails with InvalidLineError when fewer than 2 vertices result, when any
vertex is not a 2-numeric tuple, or when the collapsed sequence is empty. -/
def normalize (s : RawSpec) : Except LineError (List (ℚ × ℚ)) :=
  match coordsOf s with
  | none => Except.error LineError.invalidLine
  | some cs =>
      let vs := dedupConsec cs
      if vs.length < 2 then Except.error LineError.invalidLine else Except.ok vs

/-- The raw (nested sequence) encoding of a coordinate list: each vertex is a
2-numeric tuple inside an outer sequence.  A two-point coordinate pair is the
special case of a 2-element coordinate list. -/
def rawOfCoords (cs : List (ℚ × ℚ)) : RawSpec :=
  RawSpec.seq (cs.map fun c => RawSpec.seq [RawSpec.scalar c.1, RawSpec.scalar c.2])

lemma asVertex_encoded (c : ℚ × ℚ) :
    asVertex (RawSpec.seq [RawSpec.scalar c.1, RawSpec.scalar c.2]) = some c := by
  show some (c.1, c.2) = some c
  rw [Prod.mk.eta]

lemma vertsOfItems_encoded (cs : List (ℚ × ℚ)) :
    vertsOfItems (cs.map fun c => RawSpec.seq [RawSpec.scalar c.1, RawSpec.scalar c.2])
      = some cs := by
  induction cs with
  | nil => rfl
  | cons c rest ih =>
      simp only [List.map_cons, vertsOfItems, asVertex_encoded, ih]

/-- C1: the three accepted encodings of one geometric line (a nested
coordinate sequence, which subsumes the two-point coordinate-pair shorthand; a
flopy geometry object; a shapely geometry object) normalize to identical
canonical vertex sequences, with exact equality of the rational
coordinates. -/
theorem normalize_encoding_equivalence (cs : List (ℚ × ℚ)) :
    normalize (rawOfCoords cs) = normalize (RawSpec.flopyGeom cs) ∧
    normalize (RawSpec.flopyGeom cs) = normalize (RawSpec.shapelyGeom cs) := by
  refine ⟨?_, rfl⟩
  show normalize (rawOfCoords cs) = normalize (RawSpec.flopyGeom cs)
  unfold normalize rawOfCoords
  have h : coordsOf (RawSpec.seq
      (cs.map fun c => RawSpec.seq [RawSpec.scalar c.1, RawSpec.scalar c.2]))
        = some cs := vertsOfItems_encoded cs
  rw [h]
  rfl

/-- C2: every invalid line specification is rejected with InvalidLineError
rather than silently coerced: the empty sequence, a bare scalar, a singleton
scalar sequence, a bare pair of scalars (not two 2D points), a single point,
a spec with a non-numeric coordinate, and a malformed nested shape. -/
theorem normalize_invalid_specs_rejected :
    normalize (RawSpec.seq []) = Except.error LineError.invalidLine ∧
    (∀ a : ℚ, normalize (RawSpec.scalar a) = Except.error LineError.invalidLine) ∧
    (∀ a : ℚ, normalize (RawSpec.seq [RawSpec.scalar a])
      = Except.error LineError.invalidLine) ∧
    (∀ a b : ℚ, normalize (RawSpec.seq [RawSpec.scalar a, RawSpec.scalar b])
      = Except.error LineError.invalidLine) ∧
    (∀ x y : ℚ, normalize (RawSpec.seq [RawSpec.seq [RawSpec.scalar x, RawSpec.scalar y]])
      = Except.error LineError.invalidLine) ∧
    (∀ x u v : ℚ, normalize (RawSpec.seq
      [RawSpec.seq [RawSpec.scalar x, RawSpec.nonNumeric],
       RawSpec.seq [RawSpec.scalar u, RawSpec.scalar v]])
      = Except.error LineError.invalidLine) ∧
    normalize (RawSpec.seq [RawSpec.seq []]) = Except.error LineError.invalidLine := by
  refine ⟨rfl, fun a => rfl, fun a => rfl, fun a b => rfl, fun x y => rfl,
    fun x u v => rfl, rfl⟩

/-- Modelled from the spec: a structured Grid abstraction (§3, §6): layer,
row and column counts, ascending row/column edge coordinates from which each
cell footprint rectangle derives, the model top elevation, per-layer bottom
elevations, and the active (idomain) mask. -/
structure Grid where
  nlay : ℕ
  nrow : ℕ
  ncol : ℕ
  xEdge : ℕ → ℚ
  yEdge : ℕ → ℚ
  top : ℕ → ℕ → ℚ
  botm : ℕ → ℕ → ℕ → ℚ
  idomain : ℕ → ℕ → ℕ → Bool

/-- A 2D point of the canonicalized line. -/
abbrev Point : Type := ℚ × ℚ

/-- A Segment is a (start, end) vertex pair (§3). -/
abbrev Seg : Type := Point × Point

/-- The segments of a line: consecutive vertex pairs (§3). -/
def segsOf (verts : List Point) : List Seg := verts.zip verts.tail

/-- Pair every element of a list with its index, starting at n. -/
def withIdx {α : Type} : ℕ → List α → List (ℕ × α)
  | _, [] => []
  | n, a :: l => (n, a) :: withIdx (n + 1) l

/-- Minimum of two rationals, written so the kernel evaluates it. -/
def qmin (a b : ℚ) : ℚ := if a ≤ b then a else b

/-- Maximum of two rationals, written so the kernel evaluates it. -/
def qmax (a b : ℚ) : ℚ := if a ≤ b then b else a

/-- Modelled from the spec: one slab step of the segment-rectangle
intersector (§4.3): intersect the running parameter interval [a, b] with the
set of t for which lo ≤ p + t * d ≤ hi.  A constant coordinate outside the
slab yields the empty interval (1, 0). -/
def slabItv (p d lo hi a b : ℚ) : ℚ × ℚ :=
  if d = 0 then (if lo ≤ p ∧ p ≤ hi then (a, b) else (1, 0))
  else
    (qmax a (qmin ((lo - p) / d) ((hi - p) / d)),
     qmin b (qmax ((lo - p) / d) ((hi - p) / d)))

/-- Modelled from the spec: the 1D parameter interval (within t ∈ [0, 1])
where a segment lies inside an axis-aligned cell footprint rectangle,
computed by the standard slab method on exact rationals (§4.2 structured
fast path, §4.3). -/
def clip01 (sg : Seg) (xlo xhi ylo yhi : ℚ) : ℚ × ℚ :=
  slabItv sg.1.2 (sg.2.2 - sg.1.2) ylo yhi
    (slabItv sg.1.1 (sg.2.1 - sg.1.1) xlo xhi 0 1).1
    (slabItv sg.1.1 (sg.2.1 - sg.1.1) xlo xhi 0 1).2

/-- Modelled from the spec: one Intersection Record (§3): a segment index and
the parameter sub-interval [a, b] of that segment lying inside a cell
footprint. -/
structure Rec where
  seg : ℕ
  a : ℚ
  b : ℚ
deriving DecidableEq

/-- Modelled from the spec: the intersection records of one horizontal cell
(row i, column j) across all segments of the line, in ascending segment
order.  Grazing contacts and non-intersections (empty or single-point
parameter intervals) contribute no geometry and are dropped (§4.3, §7). -/
def cellRecs (g : Grid) (verts : List Point) (i j : ℕ) : List Rec :=
  (withIdx 0 (segsOf verts)).filterMap fun si =>
    let ab := clip01 si.2 (g.xEdge j) (g.xEdge (j + 1)) (g.yEdge i) (g.yEdge (i + 1))
    if ab.1 < ab.2 then some ⟨si.1, ab.1, ab.2⟩ else none

/-- Modelled from the spec: the Assembler merges records of one cell that are
contiguous along the line (the previous record runs to the end of its segment
and the next starts at the beginning of the following segment) into one
station sub-range; disjoint sub-ranges stay separate entries (§4.4). -/
def mergeGroups : List Rec → List (List Rec)
  | [] => []
  | [r] => [[r]]
  | r :: r2 :: rest =>
      let gs := mergeGroups (r2 :: rest)
      if r2.seg = r.seg + 1 ∧ r.b = 1 ∧ r2.a = 0 then
        match gs with
        | [] => [[r]]
        | grp :: gs2 => (r :: grp) :: gs2
      else [r] :: gs

/-- The first record of a merged group (groups are never empty). -/
def startRec : List Rec → Rec
  | [] => ⟨0, 0, 0⟩
  | r :: _ => r

/-- The last record of a merged group (groups are never empty). -/
def endRec : List Rec → Rec
  | [] => ⟨0, 0, 0⟩
  | [r] => r
  | _ :: r :: t => endRec (r :: t)

/-- Modelled from the spec: a Projected Cell entry (§3): its (layer, cell)
key, the sub-range index making disjoint sub-ranges of the same cell
independently addressable, and the line-parameter positions (segment index,
parameter) of its station extent start and end. -/
structure PCell where
  layer : ℕ
  row : ℕ
  col : ℕ
  sub : ℕ
  s0 : ℕ × ℚ
  s1 : ℕ × ℚ
deriving DecidableEq

/-- Modelled from the spec: the Projected Cell entries of one (layer, row,
column) cell: one entry per merged station sub-range, skipped entirely when
the active mask marks the cell inactive (§4.4 masking). -/
def cellEntries (g : Grid) (verts : List Point) (k i j : ℕ) : List PCell :=
  if g.idomain k i j = true then
    (withIdx 0 (mergeGroups (cellRecs g verts i j))).map fun p =>
      ⟨k, i, j, p.1, ((startRec p.2).seg, (startRec p.2).a),
        ((endRec p.2).seg, (endRec p.2).b)⟩
  else []

/-- Entries of one grid row, ascending column order (§4.4 determinism). -/
def rowEntries (g : Grid) (verts : List Point) (k i : ℕ) : List PCell :=
  ((List.range g.ncol).map fun j => cellEntries g verts k i j).flatten

/-- Entries of one layer, ascending row then column order (§4.4). -/
def layerEntries (g : Grid) (verts : List Point) (k : ℕ) : List PCell :=
  ((List.range g.nrow).map fun i => rowEntries g verts k i).flatten

/-- Modelled from the spec: the Cross-Section Assembler (§4.4): the ordered
output map of Projected Cell entries, iterated in ascending layer then
ascending horizontal cell index order, with inactive cells excluded
entirely. -/
def assemble (g : Grid) (verts : List Point) : List PCell :=
  ((List.range g.nlay).map fun k => layerEntries g verts k).flatten

/-- Modelled from the spec: the length of one segment, the Euclidean distance
between its endpoints (§3). -/
noncomputable def segLen (sg : Seg) : ℝ :=
  Real.sqrt (((sg.2.1 - sg.1.1 : ℚ) : ℝ) ^ 2 + ((sg.2.2 - sg.1.2 : ℚ) : ℝ) ^ 2)

/-- The lengths of all segments of a line. -/
noncomputable def lensOf (verts : List Point) : List ℝ :=
  (segsOf verts).map segLen

/-- Modelled from the spec: the Station of a line-parameter position (§3):
the cumulative length of the preceding segments plus the fractional distance
along the current one; monotonically non-decreasing along the line. -/
noncomputable def statOf (lens : List ℝ) (p : ℕ × ℚ) : ℝ :=
  (lens.take p.1).sum + (p.2 : ℝ) * lens.getD p.1 0

/-- The station of a line-parameter position on a given line. -/
noncomputable def stationOf (verts : List Point) (p : ℕ × ℚ) : ℝ :=
  statOf (lensOf verts) p

/-- Modelled from the spec: the total line length, the sum of the segment
lengths of the possibly multi-segment line (§3). -/
noncomputable def totalLen (verts : List Point) : ℝ :=
  (lensOf verts).sum

/-- The top elevation of a layer: the model top for layer 0, the bottom of
the layer above otherwise (structured-grid elevation convention, §3). -/
def layTop (g : Grid) (k i j : ℕ) : ℚ :=
  if k = 0 then g.top i j else g.botm (k - 1) i j

/-- Modelled from the spec: the polygon of a Projected Cell in (station,
elevation) coordinates: (min_station, top), (max_station, top),
(max_station, bottom), (min_station, bottom) (§4.4). -/
noncomputable def projPoly (g : Grid) (verts : List Point) (pc : PCell) :
    List (ℝ × ℚ) :=
  [(stationOf verts pc.s0, layTop g pc.layer pc.row pc.col),
   (stationOf verts pc.s1, layTop g pc.layer pc.row pc.col),
   (stationOf verts pc.s1, g.botm pc.layer pc.row pc.col),
   (stationOf verts pc.s0, g.botm pc.layer pc.row pc.col)]

/-- Modelled from the spec: the Projected Center of a Projected Cell: the
arithmetic mean of min and max station at the vertical midpoint of the layer
(§4.4). -/
noncomputable def projCenter (g : Grid) (verts : List Point) (pc : PCell) :
    ℝ × ℚ :=
  ((stationOf verts pc.s0 + stationOf verts pc.s1) / 2,
   (layTop g pc.layer pc.row pc.col + g.botm pc.layer pc.row pc.col) / 2)

/-- Modelled from the spec: the companion Projected Center map of the
assembled output (§4.4, §6). -/
noncomputable def projctr (g : Grid) (verts : List Point) :
    List ((ℕ × ℕ × ℕ × ℕ) × (ℝ × ℚ)) :=
  (assemble g verts).map fun pc =>
    ((pc.layer, pc.row, pc.col, pc.sub), projCenter g verts pc)

lemma mem_withIdx_lt {α : Type} {p : ℕ × α} :
    ∀ {n : ℕ} {l : List α}, p ∈ withIdx n l → n ≤ p.1 ∧ p.1 < n + l.length := by
  intro n l
  induction l generalizing n with
  | nil => intro h; cases h
  | cons a t ih =>
      intro h
      rcases List.mem_cons.mp h with h1 | h2
      · subst h1; simp
      · have := ih h2
        simp only [List.length_cons]
        omega

lemma mem_withIdx_snd {α : Type} {p : ℕ × α} :
    ∀ {n : ℕ} {l : List α}, p ∈ withIdx n l → p.2 ∈ l := by
  intro n l
  induction l generalizing n with
  | nil => intro h; cases h
  | cons a t ih =>
      intro h
      rcases List.mem_cons.mp h with h1 | h2
      · subst h1; exact List.mem_cons_self a t
      · exact List.mem_cons_of_mem a (ih h2)

lemma le_qmax_left (a x : ℚ) : a ≤ qmax a x := by
  unfold qmax
  split
  · assumption
  · exact le_refl a

lemma qmin_le_left (b y : ℚ) : qmin b y ≤ b := by
  unfold qmin
  split
  · exact le_refl b
  · exact le_of_lt (lt_of_not_le (by assumption))

lemma slabItv_bounds {p d lo hi a b : ℚ}
    (h : (slabItv p d lo hi a b).1 < (slabItv p d lo hi a b).2) :
    a ≤ (slabItv p d lo hi a b).1 ∧ (slabItv p d lo hi a b).2 ≤ b := by
  unfold slabItv at h ⊢
  by_cases hd : d = 0
  · rw [if_pos hd] at h ⊢
    by_cases hin : lo ≤ p ∧ p ≤ hi
    · rw [if_pos hin]
      exact ⟨le_refl a, le_refl b⟩
    · rw [if_neg hin] at h
      norm_num at h
  · rw [if_neg hd]
    exact ⟨le_qmax_left a _, qmin_le_left b _⟩

lemma clip01_bounds {sg : Seg} {xlo xhi ylo yhi : ℚ}
    (h : (clip01 sg xlo xhi ylo yhi).1 < (clip01 sg xlo xhi ylo yhi).2) :
    0 ≤ (clip01 sg xlo xhi ylo yhi).1 ∧ (clip01 sg xlo xhi ylo yhi).2 ≤ 1 := by
  unfold clip01 at h ⊢
  have h2 := slabItv_bounds h
  have hA : (slabItv sg.1.1 (sg.2.1 - sg.1.1) xlo xhi 0 1).1
      < (slabItv sg.1.1 (sg.2.1 - sg.1.1) xlo xhi 0 1).2 :=
    lt_of_le_of_lt h2.1 (lt_of_lt_of_le h h2.2)
  have h1 := slabItv_bounds hA
  exact ⟨le_trans h1.1 h2.1, le_trans h2.2 h1.2⟩

/-- Invariant of an intersection record over a line with n segments: valid
segment index and a positive parameter sub-interval within [0, 1]. -/
def RecOkN (n : ℕ) (r : Rec) : Prop :=
  r.seg < n ∧ 0 ≤ r.a ∧ r.a < r.b ∧ r.b ≤ 1

lemma cellRecs_ok {g : Grid} {verts : List Point} {i j : ℕ} {r : Rec}
    (h : r ∈ cellRecs g verts i j) : RecOkN (segsOf verts).length r := by
  unfold cellRecs at h
  rcases List.mem_filterMap.mp h with ⟨si, hsi, hval⟩
  dsimp only at hval
  split at hval
  · cases hval
    have hseg := mem_withIdx_lt hsi
    have hb := clip01_bounds (by assumption)
    have hlt : si.1 < (segsOf verts).length := by
      have := hseg.2
      omega
    exact ⟨hlt, hb.1, by assumption, hb.2⟩
  · cases hval

/-- A merged group is a chain of records in which each record runs to the end
of its segment and the next starts at the beginning of the following
segment. -/
def chainAdj : List Rec → Prop
  | [] => True
  | [_] => True
  | r :: r2 :: t => (r2.seg = r.seg + 1 ∧ r.b = 1 ∧ r2.a = 0) ∧ chainAdj (r2 :: t)

lemma mergeGroups_cons_cons (x r2 : Rec) (t : List Rec) :
    mergeGroups (x :: r2 :: t) =
      if r2.seg = x.seg + 1 ∧ x.b = 1 ∧ r2.a = 0 then
        match mergeGroups (r2 :: t) with
        | [] => [[x]]
        | grp :: gs2 => (x :: grp) :: gs2
      else [x] :: mergeGroups (r2 :: t) := by
  rfl

lemma mergeGroups_cons_shape (x : Rec) (xs : List Rec) :
    ∃ g2 rest, mergeGroups (x :: xs) = (x :: g2) :: rest := by
  cases xs with
  | nil => exact ⟨[], [], rfl⟩
  | cons r2 t =>
      rw [mergeGroups_cons_cons]
      by_cases hc : r2.seg = x.seg + 1 ∧ x.b = 1 ∧ r2.a = 0
      · rw [if_pos hc]
        cases hmg : mergeGroups (r2 :: t) with
        | nil => exact ⟨[], [], rfl⟩
        | cons grp gs2 => exact ⟨grp, gs2, rfl⟩
      · rw [if_neg hc]
        exact ⟨[], mergeGroups (r2 :: t), rfl⟩

lemma mergeGroups_props :
    ∀ (l : List Rec), ∀ g ∈ mergeGroups l,
      g ≠ [] ∧ chainAdj g ∧ ∀ r ∈ g, r ∈ l := by
  intro l
  induction l with
  | nil => intro g hg; cases hg
  | cons x xs ih =>
      cases xs with
      | nil =>
          intro g hg
          rcases List.mem_cons.mp hg with h1 | h2
          · subst h1
            refine ⟨List.cons_ne_nil x [], trivial, ?_⟩
            intro r hr
            rcases List.mem_cons.mp hr with h3 | h4
            · rw [h3]; exact List.mem_cons_self x []
            · cases h4
          · cases h2
      | cons r2 t =>
          intro g hg
          rw [mergeGroups_cons_cons] at hg
          by_cases hc : r2.seg = x.seg + 1 ∧ x.b = 1 ∧ r2.a = 0
          · rw [if_pos hc] at hg
            rcases mergeGroups_cons_shape r2 t with ⟨g2, rest, hshape⟩
            rw [hshape] at hg
            have hg2mem : (r2 :: g2) ∈ mergeGroups (r2 :: t) := by
              rw [hshape]; exact List.mem_cons_self _ _
            have hg2props := ih (r2 :: g2) hg2mem
            rcases List.mem_cons.mp hg with h1 | h2
            · subst h1
              refine ⟨List.cons_ne_nil _ _, ⟨hc, hg2props.2.1⟩, ?_⟩
              intro r hr
              rcases List.mem_cons.mp hr with h3 | h4
              · rw [h3]; exact List.mem_cons_self _ _
              · exact List.mem_cons_of_mem x (hg2props.2.2 r h4)
            · have hmem : g ∈ mergeGroups (r2 :: t) := by
                rw [hshape]; exact List.mem_cons_of_mem _ h2
              have := ih g hmem
              exact ⟨this.1, this.2.1,
                fun r hr => List.mem_cons_of_mem x (this.2.2 r hr)⟩
          · rw [if_neg hc] at hg
            rcases List.mem_cons.mp hg with h1 | h2
            · subst h1
              refine ⟨List.cons_ne_nil x [], trivial, ?_⟩
              intro r hr
              rcases List.mem_cons.mp hr with h3 | h4
              · rw [h3]; exact List.mem_cons_self _ _
              · cases h4
            · have := ih g h2
              exact ⟨this.1, this.2.1,
                fun r hr => List.mem_cons_of_mem x (this.2.2 r hr)⟩

lemma startRec_mem {g : List Rec} (h : g ≠ []) : startRec g ∈ g := by
  cases g with
  | nil => exact absurd rfl h
  | cons r t => exact List.mem_cons_self r t

lemma endRec_mem {g : List Rec} (h : g ≠ []) : endRec g ∈ g := by
  induction g with
  | nil => exact absurd rfl h
  | cons r t ih =>
      cases t with
      | nil => exact List.mem_cons_self r []
      | cons r2 t2 =>
          exact List.mem_cons_of_mem r (ih (List.cons_ne_nil r2 t2))

lemma segLen_pos {sg : Seg} (h : sg.1 ≠ sg.2) : 0 < segLen sg := by
  unfold segLen
  rw [Real.sqrt_pos]
  have hne : sg.2.1 - sg.1.1 ≠ 0 ∨ sg.2.2 - sg.1.2 ≠ 0 := by
    by_contra hcon
    push_neg at hcon
    apply h
    have h1 : sg.1.1 = sg.2.1 := by
      have := hcon.1
      linarith [sub_eq_zero.mp this]
    have h2 : sg.1.2 = sg.2.2 := by
      have := hcon.2
      linarith [sub_eq_zero.mp this]
    exact Prod.ext h1 h2
  rcases hne with h1 | h2
  · have hc : ((sg.2.1 - sg.1.1 : ℚ) : ℝ) ≠ 0 := by exact_mod_cast h1
    have hp := lt_of_le_of_ne (sq_nonneg ((sg.2.1 - sg.1.1 : ℚ) : ℝ))
      (Ne.symm (pow_ne_zero 2 hc))
    nlinarith [sq_nonneg ((sg.2.2 - sg.1.2 : ℚ) : ℝ)]
  · have hc : ((sg.2.2 - sg.1.2 : ℚ) : ℝ) ≠ 0 := by exact_mod_cast h2
    have hp := lt_of_le_of_ne (sq_nonneg ((sg.2.2 - sg.1.2 : ℚ) : ℝ))
      (Ne.symm (pow_ne_zero 2 hc))
    nlinarith [sq_nonneg ((sg.2.1 - sg.1.1 : ℚ) : ℝ)]

lemma lensOf_length (verts : List Point) :
    (lensOf verts).length = (segsOf verts).length := by
  unfold lensOf
  exact List.length_map _ _

lemma lensOf_nonneg (verts : List Point) : ∀ x ∈ lensOf verts, 0 ≤ x := by
  intro x hx
  unfold lensOf at hx
  rcases List.mem_map.mp hx with ⟨sg, _, hsg⟩
  rw [← hsg]
  exact Real.sqrt_nonneg _

lemma lensOf_pos {verts : List Point} (hnd : ∀ sg ∈ segsOf verts, sg.1 ≠ sg.2) :
    ∀ k (hk : k < (lensOf verts).length), 0 < (lensOf verts)[k] := by
  intro k hk
  have hk2 : k < (segsOf verts).length := by
    rw [← lensOf_length verts]
    exact hk
  have hmapk : (lensOf verts)[k] = segLen ((segsOf verts)[k]) := by
    unfold lensOf
    exact List.getElem_map segLen
  rw [hmapk]
  exact segLen_pos (hnd _ (List.getElem_mem hk2))

lemma statOf_seg_mono {lens : List ℝ} (hpos : ∀ k (hk : k < lens.length), 0 < lens[k])
    {s : ℕ} (hs : s < lens.length) {x y : ℚ} (hxy : x < y) :
    statOf lens (s, x) < statOf lens (s, y) := by
  unfold statOf
  simp only
  rw [List.getD_eq_getElem lens 0 hs]
  have hlen := hpos s hs
  have hcast : (x : ℝ) < (y : ℝ) := by exact_mod_cast hxy
  have := mul_lt_mul_of_pos_right hcast hlen
  linarith

lemma statOf_bridge {lens : List ℝ} {s : ℕ} (hs : s < lens.length) :
    statOf lens (s, 1) = statOf lens (s + 1, 0) := by
  unfold statOf
  simp only [Rat.cast_one, one_mul, Rat.cast_zero, zero_mul, add_zero]
  rw [List.getD_eq_getElem lens 0 hs]
  exact (List.sum_take_succ lens s hs).symm

lemma group_stat_lt {lens : List ℝ}
    (hpos : ∀ k (hk : k < lens.length), 0 < lens[k]) :
    ∀ g : List Rec, g ≠ [] → chainAdj g → (∀ r ∈ g, RecOkN lens.length r) →
      statOf lens ((startRec g).seg, (startRec g).a)
        < statOf lens ((endRec g).seg, (endRec g).b) := by
  intro g
  induction g with
  | nil => intro h; exact absurd rfl h
  | cons r t ih =>
      intro _ hchain hok
      cases t with
      | nil =>
          have hr := hok r (List.mem_cons_self r [])
          exact statOf_seg_mono hpos hr.1 hr.2.2.1
      | cons r2 t2 =>
          have hadj : r2.seg = r.seg + 1 ∧ r.b = 1 ∧ r2.a = 0 := hchain.1
          have hchain2 : chainAdj (r2 :: t2) := hchain.2
          have hr := hok r (List.mem_cons_self _ _)
          have step1 : statOf lens (r.seg, r.a) < statOf lens (r.seg, r.b) :=
            statOf_seg_mono hpos hr.1 hr.2.2.1
          have step2 : statOf lens (r.seg, r.b) = statOf lens (r2.seg, r2.a) := by
            rw [hadj.2.1, hadj.2.2, hadj.1]
            exact statOf_bridge hr.1
          have hokt : ∀ x ∈ r2 :: t2, RecOkN lens.length x :=
            fun x hx => hok x (List.mem_cons_of_mem r hx)
          have step3 := ih (List.cons_ne_nil r2 t2) hchain2 hokt
          have hstart : startRec (r2 :: t2) = r2 := rfl
          have hend : endRec (r :: r2 :: t2) = endRec (r2 :: t2) := rfl
          rw [hstart] at step3
          show statOf lens (r.seg, r.a)
            < statOf lens ((endRec (r :: r2 :: t2)).seg, (endRec (r :: r2 :: t2)).b)
          rw [hend]
          calc statOf lens (r.seg, r.a)
              < statOf lens (r.seg, r.b) := step1
            _ = statOf lens (r2.seg, r2.a) := step2
            _ < statOf lens ((endRec (r2 :: t2)).seg, (endRec (r2 :: t2)).b) := step3

lemma statOf_bounds {lens : List ℝ} (hnn : ∀ x ∈ lens, 0 ≤ x) {s : ℕ}
    (hs : s < lens.length) {t : ℚ} (ht0 : 0 ≤ t) (ht1 : t ≤ 1) :
    0 ≤ statOf lens (s, t) ∧ statOf lens (s, t) ≤ lens.sum := by
  unfold statOf
  simp only
  have h1 : 0 ≤ (lens.take s).sum :=
    List.sum_nonneg fun x hx => hnn x (List.mem_of_mem_take hx)
  rw [List.getD_eq_getElem lens 0 hs]
  have hlnn : 0 ≤ lens[s] := hnn _ (List.getElem_mem hs)
  constructor
  · have hm : 0 ≤ (t : ℝ) * lens[s] :=
      mul_nonneg (by exact_mod_cast ht0) hlnn
    linarith
  · have hmul : (t : ℝ) * lens[s] ≤ lens[s] :=
      mul_le_of_le_one_left hlnn (by exact_mod_cast ht1)
    have hsucc : (lens.take (s + 1)).sum = (lens.take s).sum + lens[s] :=
      List.sum_take_succ lens s hs
    have hdrop : 0 ≤ (lens.drop (s + 1)).sum :=
      List.sum_nonneg fun x hx => hnn x (List.mem_of_mem_drop hx)
    have hsplit : (lens.take (s + 1)).sum + (lens.drop (s + 1)).sum = lens.sum := by
      rw [← List.sum_append, List.take_append_drop]
    linarith

lemma mem_cellEntries {g : Grid} {verts : List Point} {k i j : ℕ} {pc : PCell}
    (h : pc ∈ cellEntries g verts k i j) :
    pc.layer = k ∧ pc.row = i ∧ pc.col = j ∧ g.idomain k i j = true ∧
    ∃ grp ∈ mergeGroups (cellRecs g verts i j),
      pc.s0 = ((startRec grp).seg, (startRec grp).a) ∧
      pc.s1 = ((endRec grp).seg, (endRec grp).b) := by
  unfold cellEntries at h
  split at h
  · rcases List.mem_map.mp h with ⟨p, hp, hpc⟩
    subst hpc
    exact ⟨rfl, rfl, rfl, by assumption, p.2, mem_withIdx_snd hp, rfl, rfl⟩
  · cases h

lemma mem_rowEntries {g : Grid} {verts : List Point} {k i : ℕ} {pc : PCell}
    (h : pc ∈ rowEntries g verts k i) :
    ∃ j, j < g.ncol ∧ pc ∈ cellEntries g verts k i j := by
  unfold rowEntries at h
  rcases List.mem_flatten.mp h with ⟨l, hl, hpc⟩
  rcases List.mem_map.mp hl with ⟨j, hj, hlj⟩
  exact ⟨j, List.mem_range.mp hj, hlj ▸ hpc⟩

lemma mem_layerEntries {g : Grid} {verts : List Point} {k : ℕ} {pc : PCell}
    (h : pc ∈ layerEntries g verts k) :
    ∃ i, i < g.nrow ∧ pc ∈ rowEntries g verts k i := by
  unfold layerEntries at h
  rcases List.mem_flatten.mp h with ⟨l, hl, hpc⟩
  rcases List.mem_map.mp hl with ⟨i, hi, hli⟩
  exact ⟨i, List.mem_range.mp hi, hli ▸ hpc⟩

lemma mem_assemble {g : Grid} {verts : List Point} {pc : PCell}
    (h : pc ∈ assemble g verts) :
    ∃ k, k < g.nlay ∧ pc ∈ layerEntries g verts k := by
  unfold assemble at h
  rcases List.mem_flatten.mp h with ⟨l, hl, hpc⟩
  rcases List.mem_map.mp hl with ⟨k, hk, hlk⟩
  exact ⟨k, List.mem_range.mp hk, hlk ▸ hpc⟩

lemma assemble_shape {g : Grid} {verts : List Point} {pc : PCell}
    (h : pc ∈ assemble g verts) :
    pc.layer < g.nlay ∧ pc.row < g.nrow ∧ pc.col < g.ncol ∧
    g.idomain pc.layer pc.row pc.col = true ∧
    ∃ grp ∈ mergeGroups (cellRecs g verts pc.row pc.col),
      pc.s0 = ((startRec grp).seg, (startRec grp).a) ∧
      pc.s1 = ((endRec grp).seg, (endRec grp).b) := by
  rcases mem_assemble h with ⟨k, hk, hl⟩
  rcases mem_layerEntries hl with ⟨i, hi, hr⟩
  rcases mem_rowEntries hr with ⟨j, hj, hc⟩
  rcases mem_cellEntries hc with ⟨hlay, hrow, hcol, hid, grp, hgrp, hs0, hs1⟩
  subst hlay
  subst hrow
  subst hcol
  exact ⟨hk, hi, hj, hid, grp, hgrp, hs0, hs1⟩

/-- The start and end parameter positions of every assembled entry come from
a nonempty merged chain of valid intersection records of its own cell. -/
lemma assemble_entry_group {g : Grid} {verts : List Point} {pc : PCell}
    (h : pc ∈ assemble g verts) :
    ∃ grp, grp ≠ [] ∧ chainAdj grp ∧
      (∀ r ∈ grp, RecOkN (segsOf verts).length r) ∧
      pc.s0 = ((startRec grp).seg, (startRec grp).a) ∧
      pc.s1 = ((endRec grp).seg, (endRec grp).b) := by
  rcases assemble_shape h with ⟨_, _, _, _, grp, hgrp, hs0, hs1⟩
  have hprops := mergeGroups_props _ grp hgrp
  exact ⟨grp, hprops.1, hprops.2.1,
    fun r hr => cellRecs_ok (hprops.2.2 r hr), hs0, hs1⟩

lemma mem_layerEntries_layer {g : Grid} {verts : List Point} {k : ℕ} {pc : PCell}
    (h : pc ∈ layerEntries g verts k) : pc.layer = k := by
  rcases mem_layerEntries h with ⟨i, _, hr⟩
  rcases mem_rowEntries hr with ⟨j, _, hc⟩
  exact (mem_cellEntries hc).1

/-- C7: the projection pipeline is a pure function of its (line, grid)
inputs, so two runs on identical inputs yield bit-identical ordered output
maps, and the assembled entries are iterated in the fixed order of ascending
layer, then ascending horizontal cell index (row-major row * ncol + col). -/
theorem pipeline_deterministic_ordering (g : Grid) (verts : List Point) :
    assemble g verts = assemble g verts ∧
    List.Pairwise (fun p q : PCell =>
      p.layer < q.layer ∨
      (p.layer = q.layer ∧ p.row * g.ncol + p.col ≤ q.row * g.ncol + q.col))
      (assemble g verts) := by
  refine ⟨rfl, ?_⟩
  unfold assemble
  rw [List.pairwise_flatten]
  constructor
  · intro l hl
    rcases List.mem_map.mp hl with ⟨k, hk, hlk⟩
    rw [← hlk]
    unfold layerEntries
    rw [List.pairwise_flatten]
    constructor
    · intro l2 hl2
      rcases List.mem_map.mp hl2 with ⟨i, hi, hli⟩
      rw [← hli]
      unfold rowEntries
      rw [List.pairwise_flatten]
      constructor
      · intro l3 hl3
        rcases List.mem_map.mp hl3 with ⟨j, hj, hlj⟩
        rw [← hlj]
        apply List.pairwise_of_forall_mem_list
        intro a ha b hb
        have hA := mem_cellEntries ha
        have hB := mem_cellEntries hb
        right
        refine ⟨by rw [hA.1, hB.1], ?_⟩
        rw [hA.2.1, hA.2.2.1, hB.2.1, hB.2.2.1]
      · rw [List.pairwise_map]
        refine (List.pairwise_lt_range _).imp ?_
        intro j1 j2 hj12 a ha b hb
        have hA := mem_cellEntries ha
        have hB := mem_cellEntries hb
        right
        refine ⟨by rw [hA.1, hB.1], ?_⟩
        rw [hA.2.1, hA.2.2.1, hB.2.1, hB.2.2.1]
        exact Nat.add_le_add_left (le_of_lt hj12) _
    · rw [List.pairwise_map]
      refine (List.pairwise_lt_range _).imp ?_
      intro i1 i2 hi12 a ha b hb
      rcases mem_rowEntries ha with ⟨j1, hj1, ha2⟩
      rcases mem_rowEntries hb with ⟨j2, hj2, hb2⟩
      have hA := mem_cellEntries ha2
      have hB := mem_cellEntries hb2
      right
      refine ⟨by rw [hA.1, hB.1], ?_⟩
      rw [hA.2.1, hA.2.2.1, hB.2.1, hB.2.2.1]
      have hlt : i1 * g.ncol + j1 < i2 * g.ncol + j2 := by
        calc i1 * g.ncol + j1 < i1 * g.ncol + g.ncol := Nat.add_lt_add_left hj1 _
          _ = (i1 + 1) * g.ncol := by ring
          _ ≤ i2 * g.ncol := Nat.mul_le_mul_right _ hi12
          _ ≤ i2 * g.ncol + j2 := Nat.le_add_right _ _
      exact le_of_lt hlt
  · rw [List.pairwise_map]
    refine (List.pairwise_lt_range _).imp ?_
    intro k1 k2 hk12 a ha b hb
    left
    rw [mem_layerEntries_layer ha, mem_layerEntries_layer hb]
    exact hk12

/-- C4: every assembled Projected Cell places its Projected Center station
strictly between the minimum and maximum station of its own polygon: the
polygon's stations all lie in [station(s0), station(s1)], both endpoints are
attained by polygon vertices, and the center lies strictly between them. -/
theorem projected_center_strictly_inside (g : Grid) (verts : List Point)
    (pc : PCell) (hnd : ∀ sg ∈ segsOf verts, sg.1 ≠ sg.2)
    (h : pc ∈ assemble g verts) :
    stationOf verts pc.s0 < (projCenter g verts pc).1 ∧
    (projCenter g verts pc).1 < stationOf verts pc.s1 ∧
    ∀ q ∈ projPoly g verts pc,
      stationOf verts pc.s0 ≤ q.1 ∧ q.1 ≤ stationOf verts pc.s1 := by
  rcases assemble_entry_group h with ⟨grp, hne, hchain, hok, hs0, hs1⟩
  have hokL : ∀ r ∈ grp, RecOkN (lensOf verts).length r := by
    intro r hr
    rw [lensOf_length]
    exact hok r hr
  have hlt : stationOf verts pc.s0 < stationOf verts pc.s1 := by
    unfold stationOf
    rw [hs0, hs1]
    exact group_stat_lt (lensOf_pos hnd) grp hne hchain hokL
  have hctr : (projCenter g verts pc).1
      = (stationOf verts pc.s0 + stationOf verts pc.s1) / 2 := rfl
  refine ⟨by rw [hctr]; linarith, by rw [hctr]; linarith, ?_⟩
  intro q hq
  unfold projPoly at hq
  simp only [List.mem_cons, List.not_mem_nil, or_false] at hq
  rcases hq with rfl | rfl | rfl | rfl
  · exact ⟨le_refl _, le_of_lt hlt⟩
  · exact ⟨le_of_lt hlt, le_refl _⟩
  · exact ⟨le_of_lt hlt, le_refl _⟩
  · exact ⟨le_refl _, le_of_lt hlt⟩

/-- C8: the station extent of every assembled Projected Cell polygon lies
within [0, total line length], the total being the sum of the segment
lengths of the possibly multi-segment line. -/
theorem projected_extent_within_line (g : Grid) (verts : List Point)
    (pc : PCell) (h : pc ∈ assemble g verts) :
    ∀ q ∈ projPoly g verts pc, 0 ≤ q.1 ∧ q.1 ≤ totalLen verts := by
  rcases assemble_entry_group h with ⟨grp, hne, hchain, hok, hs0, hs1⟩
  have hsOk := hok (startRec grp) (startRec_mem hne)
  have heOk := hok (endRec grp) (endRec_mem hne)
  have hsLen : (startRec grp).seg < (lensOf verts).length := by
    rw [lensOf_length]
    exact hsOk.1
  have heLen : (endRec grp).seg < (lensOf verts).length := by
    rw [lensOf_length]
    exact heOk.1
  have hb0 : 0 ≤ stationOf verts pc.s0 ∧ stationOf verts pc.s0 ≤ totalLen verts := by
    unfold stationOf totalLen
    rw [hs0]
    exact statOf_bounds (lensOf_nonneg verts) hsLen hsOk.2.1
      (le_of_lt (lt_of_lt_of_le hsOk.2.2.1 hsOk.2.2.2))
  have hb1 : 0 ≤ stationOf verts pc.s1 ∧ stationOf verts pc.s1 ≤ totalLen verts := by
    unfold stationOf totalLen
    rw [hs1]
    exact statOf_bounds (lensOf_nonneg verts) heLen
      (le_of_lt (lt_of_le_of_lt heOk.2.1 heOk.2.2.1)) heOk.2.2.2
  intro q hq
  unfold projPoly at hq
  simp only [List.mem_cons, List.not_mem_nil, or_false] at hq
  rcases hq with rfl | rfl | rfl | rfl
  · exact hb0
  · exact hb1
  · exact hb1
  · exact hb0

/-- Scenario A grid: a 10 by 10 single-layer structured grid of unit cells
with the first 3 columns deactivated in the idomain mask. -/
def gridA : Grid :=
  { nlay := 1, nrow := 10, ncol := 10,
    xEdge := fun j => (j : ℚ), yEdge := fun i => (i : ℚ),
    top := fun _ _ => 1, botm := fun _ _ _ => 0,
    idomain := fun _ _ j => decide (3 ≤ j) }

/-- Scenario A line: the diagonal from (0, 0) to (10, 10). -/
def lineA : List Point := [((0 : ℚ), (0 : ℚ)), ((10 : ℚ), (10 : ℚ))]

/-- A minimal single-cell grid used as a concrete witness input. -/
def gridW : Grid :=
  { nlay := 1, nrow := 1, ncol := 1,
    xEdge := fun j => (j : ℚ), yEdge := fun i => (i : ℚ),
    top := fun _ _ => 1, botm := fun _ _ _ => 0,
    idomain := fun _ _ _ => true }

/-- A horizontal witness line crossing the single cell of gridW. -/
def lineW : List Point := [((0 : ℚ), (1/2 : ℚ)), ((1 : ℚ), (1/2 : ℚ))]

/-- The single Projected Cell entry produced by gridW and lineW. -/
def pcW : PCell := ⟨0, 0, 0, 0, (0, 0), (0, 1)⟩

section

attribute [local semireducible] Rat.mul Rat.add Rat.sub Rat.inv

/-- C3: assembled output keys never reference inactive cells, and in the
diagonal scenario (10 by 10 unit grid, single layer, line from (0, 0) to
(10, 10), first 3 columns deactivated) the assembler produces Projected
Cells, and projected centers, for exactly the 7 active diagonal cells the
line passes through. -/
theorem assemble_masking_and_diagonal_scenario :
    (∀ (g : Grid) (verts : List Point) (pc : PCell),
        pc ∈ assemble g verts → g.idomain pc.layer pc.row pc.col = true) ∧
    (assemble gridA lineA).length = 7 ∧
    ((assemble gridA lineA).map fun pc => (pc.layer, pc.row, pc.col)) =
      [(0, 3, 3), (0, 4, 4), (0, 5, 5), (0, 6, 6), (0, 7, 7), (0, 8, 8), (0, 9, 9)] ∧
    (projctr gridA lineA).length = 7 := by
  refine ⟨?_, by decide, by decide, ?_⟩
  · intro g verts pc h
    exact (assemble_shape h).2.2.2.1
  · unfold projctr
    rw [List.length_map]
    decide

/-- Witness for C3: a concrete assembled entry of the diagonal scenario,
whose membership hypothesis is discharged by evaluation; its cell is indeed
active. -/
theorem assemble_masking_witness :
    (⟨0, 3, 3, 0, (0, 3/10), (0, 2/5)⟩ : PCell) ∈ assemble gridA lineA ∧
    gridA.idomain 0 3 3 = true :=
  ⟨by decide, assemble_masking_and_diagonal_scenario.1 gridA lineA
    ⟨0, 3, 3, 0, (0, 3/10), (0, 2/5)⟩ (by decide)⟩

/-- Witness for C4: the single entry of the one-cell witness scenario,
with the nondegeneracy and membership hypotheses discharged by evaluation. -/
theorem projected_center_witness :
    ((∀ sg ∈ segsOf lineW, sg.1 ≠ sg.2) ∧ pcW ∈ assemble gridW lineW) ∧
    (stationOf lineW pcW.s0 < (projCenter gridW lineW pcW).1 ∧
     (projCenter gridW lineW pcW).1 < stationOf lineW pcW.s1 ∧
     ∀ q ∈ projPoly gridW lineW pcW,
       stationOf lineW pcW.s0 ≤ q.1 ∧ q.1 ≤ stationOf lineW pcW.s1) :=
  ⟨⟨by decide, by decide⟩,
    projected_center_strictly_inside gridW lineW pcW (by decide) (by decide)⟩

/-- Witness for C8: the station extent of the one-cell witness entry lies
within [0, total length], with the membership hypothesis discharged by
evaluation. -/
theorem projected_extent_witness :
    pcW ∈ assemble gridW lineW ∧
    (∀ q ∈ projPoly gridW lineW pcW, 0 ≤ q.1 ∧ q.1 ≤ totalLen lineW) :=
  ⟨by decide, projected_extent_within_line gridW lineW pcW (by decide)⟩

end

/-- Modelled from the spec: a renderer-agnostic drawable collection emitted
by the Rendering Adapter (§4.5): either a polygon (patch) collection or a
line-only collection. -/
inductive Collection where
  | patches (cells : List PCell)
  | lineSegments (cells : List PCell)
deriving DecidableEq

/-- A collection is polygon-typed when it is a patch collection. -/
def isPatchColl : Collection → Bool
  | Collection.patches _ => true
  | Collection.lineSegments _ => false

/-- Modelled from the spec: the boundary-condition rendering entry point of
the Rendering Adapter (§4.5): looks up each Projected Cell's
boundary-condition flag via its (layer, cell) key, excludes cells with no
associated value, and emits the flagged cells as one polygon collection. -/
def plotBC (g : Grid) (verts : List Point) (bc : ℕ → ℕ → ℕ → Bool) :
    List Collection :=
  let cells := (assemble g verts).filter fun pc => bc pc.layer pc.row pc.col
  if cells.isEmpty then [] else [Collection.patches cells]

/-- Modelled from the spec: the row-number line shorthand of Scenario B: a
horizontal cross-section line traced across the full grid width through the
center of the given row. -/
def rowLine (g : Grid) (r : ℕ) : List Point :=
  [(g.xEdge 0, (g.yEdge r + g.yEdge (r + 1)) / 2),
   (g.xEdge g.ncol, (g.yEdge r + g.yEdge (r + 1)) / 2)]

/-- Scenario B grid: a single-layer structured grid of unit cells with 12
rows and 4 columns, all active. -/
def gridB : Grid :=
  { nlay := 1, nrow := 12, ncol := 4,
    xEdge := fun j => (j : ℚ), yEdge := fun i => (i : ℚ),
    top := fun _ _ => 1, botm := fun _ _ _ => 0,
    idomain := fun _ _ _ => true }

/-- Scenario B boundary-condition flags: every cell of row 10 carries a
boundary condition. -/
def bcB : ℕ → ℕ → ℕ → Bool := fun _ i _ => decide (i = 10)

section

attribute [local semireducible] Rat.mul Rat.add Rat.sub Rat.inv

/-- C5: for the horizontal row-10 cross-section line through a grid with
boundary-condition cells on that row, the rendering adapter's output is
non-empty, and in general every collection it returns is polygon-typed,
never a line-only primitive. -/
theorem render_bc_polygon_collections :
    (plotBC gridB (rowLine gridB 10) bcB).isEmpty = false ∧
    (∀ (g : Grid) (verts : List Point) (bc : ℕ → ℕ → ℕ → Bool),
      (plotBC g verts bc).all isPatchColl = true) := by
  refine ⟨by decide, ?_⟩
  intro g verts bc
  unfold plotBC
  dsimp only
  split
  · rfl
  · rfl

end

/-- Modelled from the spec: the mutable axis-limit state of the plot frame
of Scenario C: whether the user set an explicit extent before invocation,
and the current x and y limits. -/
structure AxesState where
  userSet : Bool
  xlim : ℝ × ℝ
  ylim : ℝ × ℝ

/-- The minimum bottom elevation over the assembled entries. -/
def botMin (g : Grid) (verts : List Point) : ℚ :=
  ((assemble g verts).map fun pc => g.botm pc.layer pc.row pc.col).foldr qmin 0

/-- The maximum top elevation over the assembled entries. -/
def topMax (g : Grid) (verts : List Point) : ℚ :=
  ((assemble g verts).map fun pc => layTop g pc.layer pc.row pc.col).foldr qmax 0

/-- Modelled from the spec: the computed data extent of a cross-section
plot: stations span [0, total line length] and elevations span the assembled
cells' vertical range (§4.4, §6). -/
noncomputable def computedExtent (g : Grid) (verts : List Point) :
    (ℝ × ℝ) × (ℝ × ℝ) :=
  ((0, totalLen verts), ((botMin g verts : ℝ), (topMax g verts : ℝ)))

/-- Modelled from the spec: plotting the cross-section grid onto an axes
state (Scenario C): user-supplied limits are preserved exactly; otherwise
the computed data extent is applied verbatim. -/
noncomputable def plotGrid (g : Grid) (verts : List Point) (ax : AxesState) :
    AxesState :=
  if ax.userSet then ax
  else { ax with xlim := (computedExtent g verts).1,
                 ylim := (computedExtent g verts).2 }

/-- C6: if the user set explicit axis limits before plotting, they are
preserved exactly; if not, the computed data extent is applied verbatim as
the axis limits. -/
theorem plot_limits_preserved (g : Grid) (verts : List Point) (ax : AxesState) :
    ((plotGrid g verts ax).xlim, (plotGrid g verts ax).ylim)
      = if ax.userSet then (ax.xlim, ax.ylim) else computedExtent g verts := by
  unfold plotGrid
  by_cases h : ax.userSet = true
  · rw [if_pos h, if_pos h]
  · rw [if_neg h, if_neg h]

end FlopyModel

namespace FlopyMfrch

/-- A 2D integer array: one stress period's irch layer-number data. -/
abbrev Arr := List (List ℤ)

/-- Embedded from mfrch.write_file: the one-based shift applied to each irch
array on output (u2d.array + 1). -/
def addOne (a : Arr) : Arr := a.map fun row => row.map fun v => v + 1

/-- Embedded from mfrch.load: the zero-based shift applied to each on-file
irch array (t.array - 1). -/
def subOne (a : Arr) : Arr := a.map fun row => row.map fun v => v - 1

/-- Embedded from mfrch.write_file: for nrchop = 2 the irch data is rewritten
per stress period with the +1 shift; a period that supplies no new array
writes a reuse marker (inirch < 0).  The stress-period storage of Transient2d
(whose code lives outside this tree) is modelled as a partial per-period map,
reusing the previous array when absent. -/
def writeIrchSection (nrchop : ℤ) (d : ℕ → Option Arr) (nper : ℕ) :
    List (Option Arr) :=
  if nrchop = 2 then (List.range nper).map fun kper => (d kper).map addOne
  else []

/-- Embedded from mfrch.load: walk the per-period file entries keeping a
current array; a period with inirch ≥ 0 reads its array and stores it minus
one, a reuse period keeps the previous current array (initially empty). -/
def loadIrchGo (cur : Arr) : List (Option Arr) → List Arr
  | [] => []
  | none :: rest => cur :: loadIrchGo cur rest
  | some a :: rest => subOne a :: loadIrchGo (subOne a) rest

/-- Embedded from mfrch.load: the irch arrays recovered from a package file,
one per stress period, zero-based (only read when nrchop = 2). -/
def loadIrchSection (nrchop : ℤ) (file : List (Option Arr)) : List Arr :=
  if nrchop = 2 then loadIrchGo [] file else []

/-- The effective per-period zero-based irch arrays of the in-memory
package: each period uses its own array when supplied, otherwise the
previous period's (initially empty). -/
def resolveIrchGo (d : ℕ → Option Arr) (cur : Arr) (k : ℕ) : ℕ → List Arr
  | 0 => []
  | n + 1 =>
      match d k with
      | some a => a :: resolveIrchGo d a (k + 1) n
      | none => cur :: resolveIrchGo d cur (k + 1) n

/-- The effective zero-based irch arrays for all nper stress periods. -/
def resolveIrch (d : ℕ → Option Arr) (nper : ℕ) : List Arr :=
  resolveIrchGo d [] 0 nper

lemma subOne_addOne (a : Arr) : subOne (addOne a) = a := by
  simp [subOne, addOne, List.map_map, Function.comp_def]

lemma loadGo_write (d : ℕ → Option Arr) :
    ∀ (n k : ℕ) (cur : Arr),
      loadIrchGo cur ((List.range' k n).map fun kp => (d kp).map addOne)
        = resolveIrchGo d cur k n := by
  intro n
  induction n with
  | zero => intro k cur; rfl
  | succ m ih =>
      intro k cur
      rw [List.range'_succ]
      cases hdk : d k with
      | none => simp [loadIrchGo, resolveIrchGo, hdk, ih]
      | some a => simp [loadIrchGo, resolveIrchGo, hdk, subOne_addOne, ih]

/-- C9: for a recharge package with nrchop = 2, writing shifts each stress
period's zero-based irch array to one-based on file, loading shifts the
on-file arrays back to zero-based, and load after write recovers the
original per-period zero-based irch arrays unchanged; the two shifts are
mutually inverse. -/
theorem irch_write_load_roundtrip (d : ℕ → Option Arr) (nper : ℕ) :
    loadIrchSection 2 (writeIrchSection 2 d nper) = resolveIrch d nper ∧
    ∀ a : Arr, subOne (addOne a) = a := by
  constructor
  · unfold loadIrchSection writeIrchSection resolveIrch
    rw [if_pos rfl, if_pos rfl, List.range_eq_range']
    exact loadGo_write d nper 0 []
  · exact subOne_addOne

/-- One entry of the check summary: type, value and description. -/
structure SummaryEntry where
  etype : String
  value : ℤ
  desc : String
deriving DecidableEq

/-- The accumulating state of a package check: the summary entries and the
list of passed-check descriptions. -/
structure CheckState where
  summary : List SummaryEntry
  passed : List String
deriving DecidableEq

/-- Modelled from the spec: the summary-accumulation method of the checker
class used by mfrch.check (the checker itself lives outside this tree):
append one entry to the summary. -/
def addToSummary (chk : CheckState) (etype : String) (value : ℤ)
    (desc : String) : CheckState :=
  { chk with summary := chk.summary ++ [⟨etype, value, desc⟩] }

/-- Modelled from the spec: record a passed check description. -/
def appendPassed (chk : CheckState) (d : String) : CheckState :=
  { chk with passed := chk.passed ++ [d] }

/-- Modelled from the spec: remove a passed check description. -/
def removePassed (chk : CheckState) (d : String) : CheckState :=
  { chk with passed := chk.passed.filter fun s => s != d }

/-- The warning type string used by mfrch.check for NRCHOP. -/
def warnType : String := "Warning"

/-- The warning description written by mfrch.check when NRCHOP is not 3. -/
def warnNrchopDesc : String := "\r    Variable NRCHOP set to value other than 3"

/-- The passed-check description used by mfrch.check for NRCHOP. -/
def passNrchopDesc : String := "Variable NRCHOP set to 3."

/-- Embedded from mfrch.check: the NRCHOP screen: a warning entry and
removal of the passed check when nrchop differs from 3, the passed check
otherwise. -/
def checkNrchop (nrchop : ℤ) (chk : CheckState) : CheckState :=
  if nrchop ≠ 3 then
    removePassed (addToSummary chk warnType nrchop warnNrchopDesc) passNrchopDesc
  else appendPassed chk passNrchopDesc

/-- Embedded from mfrch.check: the full check of a recharge package on a
model without hydraulic-conductivity packages: a fresh empty check state
passes through only the NRCHOP screen (the R/T screen requires a UPW or LPF
package). -/
def rchCheck (nrchop : ℤ) : CheckState := checkNrchop nrchop ⟨[], []⟩

/-- C10: the check records a Warning entry with description "Variable NRCHOP
set to value other than 3" exactly when nrchop differs from 3, and records
the passed check "Variable NRCHOP set to 3." exactly when nrchop equals
3. -/
theorem check_nrchop_summary (nrchop : ℤ) :
    ((⟨warnType, nrchop, warnNrchopDesc⟩ : SummaryEntry)
        ∈ (rchCheck nrchop).summary ↔ nrchop ≠ 3) ∧
    (passNrchopDesc ∈ (rchCheck nrchop).passed ↔ nrchop = 3) := by
  by_cases h : nrchop = 3
  · simp [rchCheck, checkNrchop, h, appendPassed]
  · simp [rchCheck, checkNrchop, h, appendPassed, addToSummary, removePassed]

end FlopyMfrch
